import Mathlib

/-!
Verification of the starter-pack build module (`starterpack/build.py`).

Python strings from the source are modelled as lists of characters
(`Str := List Char`), so every string operation used by the code is a
structurally recursive, executable Lean definition.  Filesystem effects are
modelled by explicit state: archive extraction returns the list of relative
paths written, directory trees are an inductive type, and the build pipeline
is a function from the previous filesystem state to the next one.
-/

abbrev Str := List Char

/-- Characters of a string literal; used to write `Str` constants. -/
def str (s : String) : Str := s.data

/-- Model of Python `s.partition('/')`: the text before the first slash paired
with the text after it.  The second component is empty when there is no slash,
exactly like the third field of `partition`. -/
def partitionSlash : Str → Str × Str
  | [] => ([], [])
  | c :: rest =>
    if c = '/' then ([], rest)
    else
      let p := partitionSlash rest
      (c :: p.1, p.2)

/-- Model of Python `s.split('/')` (used for `os.path.basename`). -/
def splitOnSlash : Str → List Str
  | [] => [[]]
  | c :: rest =>
    if c = '/' then
      [] :: splitOnSlash rest
    else
      match splitOnSlash rest with
      | p :: ps => (c :: p) :: ps
      | [] => [[c]]

/-- Model of Python `os.path.basename`: the part after the last slash. -/
def basenameCh (s : Str) : Str := (splitOnSlash s).getLastD []

/-- The two `ValueError` branches of `unzip_to`, named after the spec's error
taxonomy: `UnsupportedFormatError` for an unrecognized extension and
`MalformedArchiveError` for a `.zip`-named file failing the
`zipfile.is_zipfile` integrity check. -/
inductive ExtractError where
  | UnsupportedFormatError (msg : Str)
  | MalformedArchiveError (msg : Str)
  deriving DecidableEq

/-- One pass of the wrapper-stripping `while` loop in `unzip_to`: the loop
condition is `len(set(n.partition('/')[0] for o, n in contents)) == 1`, the
body breaks when a single entry remains and otherwise replaces every name by
`n.partition('/')[-1]`.  The fuel argument bounds the number of iterations;
`stripContents` supplies enough fuel for every terminating run of the loop. -/
def stripLoop : Nat → List Str → List Str
  | 0, contents => contents
  | fuel + 1, contents =>
    if (contents.map (fun n => (partitionSlash n).1)).dedup.length == 1 then
      if contents.length == 1 then
        contents
      else
        stripLoop fuel (contents.map (fun n => (partitionSlash n).2))
    else
      contents

/-- Total character count of the entry names; each stripping pass removes at
least one character from some name, so this bounds the loop. -/
def totalLen (contents : List Str) : Nat := (contents.map List.length).sum

/-- The wrapper-stripping loop of `unzip_to` run to completion. -/
def stripContents (contents : List Str) : List Str :=
  stripLoop (totalLen contents + 1) contents

/-- Model of `unzip_to` from `starterpack/build.py`.  `filename` is the source
path, `isZipValid` models `zipfile.is_zipfile`, and `names` models
`zf.namelist()`.  The result is the list of paths written relative to
`target_dir` (so an error means nothing is written), mirroring the source:
non-`.zip` files copy `.exe`s or raise, invalid zips raise, and otherwise the
directory entries are dropped and the wrapper-stripping loop is applied. -/
def unzip_to (filename : Str) (isZipValid : Bool) (names : List Str) :
    Except ExtractError (List Str) :=
  if !((str ".zip").isSuffixOf filename) then
    if (str ".exe").isSuffixOf filename then
      .ok [basenameCh filename]
    else
      .error (.UnsupportedFormatError
        (str "Only .zip and .exe files are handled by unzip_to()"))
  else if !isZipValid then
    .error (.MalformedArchiveError (filename ++ str " is not a valid .zip file."))
  else
    .ok (stripContents (names.filter (fun n => !((str "/").isSuffixOf n))))

/-- The whitespace characters stripped by Python's `str.strip()`. -/
def isPySpace (c : Char) : Bool :=
  c == ' ' || c == '\t' || c == '\n' || c == '\r' || c == '\x0b' || c == '\x0c'

/-- Model of Python `l.strip()`. -/
def trimChars (s : Str) : Str :=
  ((s.dropWhile isPySpace).reverse.dropWhile isPySpace).reverse

/-- The fixed header marker of keybinding files. -/
def BINDmarker : Str := str "[BIND:"

/-- Model of `od[line] = []` on an ordered dict represented as an association
list: an existing key keeps its position but its entry is reset to `[]`; a new
key is appended at the end. -/
def odSet (od : List (Str × List Str)) (k : Str) : List (Str × List Str) :=
  if od.any (fun p => p.1 == k) then
    od.map (fun p => if p.1 == k then (p.1, ([] : List Str)) else p)
  else
    od ++ [(k, [])]

/-- Model of `od[lastkey].append(line)`: append `v` to the entry of key `k`. -/
def odAppendVal (od : List (Str × List Str)) (k : Str) (v : Str) :
    List (Str × List Str) :=
  od.map (fun p => if p.1 == k then (p.1, p.2 ++ [v]) else p)

/-- The loop body of `_keybinds_serialiser`: each line is stripped; a
non-blank line starting with `[BIND:` resets its entry and becomes the last
key; any other non-blank line is appended to the last key's entry when a last
key exists; blank lines are skipped. -/
def keybindsAux : List Str → List (Str × List Str) → Option Str → List (Str × List Str)
  | [], od, _ => od
  | l :: rest, od, lastkey =>
    if !(trimChars l).isEmpty && BINDmarker.isPrefixOf (trimChars l) then
      keybindsAux rest (odSet od (trimChars l)) (some (trimChars l))
    else if !(trimChars l).isEmpty then
      keybindsAux rest
        (match lastkey with
          | some k => odAppendVal od k (trimChars l)
          | none => od)
        lastkey
    else
      keybindsAux rest od lastkey

/-- Model of `_keybinds_serialiser` from `starterpack/build.py`: turn lines
into an ordered mapping, starting from an empty dict and no last key. -/
def keybinds_serialiser (lines : List Str) : List (Str × List Str) :=
  keybindsAux lines [] none

/-- The merge loop of `make_keybindings`: iterate the vanilla bindings in
order, emit each header, then the override's entry when the header is in the
override configuration and the vanilla entry otherwise. -/
def make_keybindings_lines (vanbinds cfg : List (Str × List Str)) : List Str :=
  vanbinds.foldl
    (fun lines p =>
      (lines ++ [p.1]) ++
        (match List.lookup p.1 cfg with
          | some vs => vs
          | none => p.2))
    []

/-- Python `'\x7b' + item + '\x7d'`: the placeholder that `_contents` checks
for in the template before formatting. -/
def placeholderOf (k : Str) : Str := '\x7b' :: (k ++ ['\x7d'])

/-- Model of Python's substring test `pat in hay`. -/
def containsSub (pat : Str) : Str → Bool
  | [] => pat.isEmpty
  | c :: rest => pat.isPrefixOf (c :: rest) || containsSub pat rest

/-- Non-overlapping left-to-right replacement of `pat` by `rep`, modelling the
substitution `template.format(**kwargs)` performs for each present key. -/
def replaceAll (pat rep : Str) : Str → Str
  | [] => []
  | c :: rest =>
    if _hyp : pat ≠ [] ∧ pat.isPrefixOf (c :: rest) = true then
      rep ++ replaceAll pat rep ((c :: rest).drop pat.length)
    else
      c :: replaceAll pat rep rest
termination_by s => s.length
decreasing_by
  · have hpat : 0 < pat.length := List.length_pos.mpr _hyp.1
    simp only [List.length_drop, List.length_cons]
    omega
  · simp [Nat.lt_succ_self]

/-- The substitution pass of `template.format(**kwargs)`: replace each key's
placeholder by its value. -/
def format_kwargs (template : Str) (kwargs : List (Str × Str)) : Str :=
  kwargs.foldl (fun t p => replaceAll (placeholderOf p.1) p.2 t) template

/-- Model of the template-fill step of `_contents`: the `for item in kwargs`
loop raises `ValueError(item + ' not listed in base/docs/contents.txt')` at
the first key whose placeholder is missing from the template, and only when
every key is present is the formatted text produced. -/
def fill_template (template : Str) (kwargs : List (Str × Str)) : Except Str Str :=
  match kwargs.find? (fun p => !(containsSub (placeholderOf p.1) template)) with
  | some p => .error (p.1 ++ str " not listed in base/docs/contents.txt")
  | none => .ok (format_kwargs template kwargs)

/-- The contents file written by `_contents`: the destination is opened for
writing only after validation succeeds, so on a validation error the previous
contents (if any) are untouched. -/
def contents_file (template : Str) (kwargs : List (Str × Str))
    (prev : Option Str) : Option Str :=
  match fill_template template kwargs with
  | .error _ => prev
  | .ok s => some s

/-- Model of Python `text.split('\n\n')`, the paragraph split used for the
changelog: scan left to right, cutting at each non-overlapping blank line. -/
def splitNNAux : Str → Str → List Str
  | acc, [] => [acc.reverse]
  | acc, [c] => [(c :: acc).reverse]
  | acc, c1 :: c2 :: rest =>
    if c1 == '\n' && c2 == '\n' then
      acc.reverse :: splitNNAux [] rest
    else
      splitNNAux (c1 :: acc) (c2 :: rest)

/-- Model of Python `'\n\n'.join(parts)`. -/
def joinNN : List Str → Str
  | [] => []
  | [p] => p
  | p :: q :: ps => p ++ '\n' :: '\n' :: joinNN (q :: ps)

/-- `text.split('\n\n')`. -/
def splitNN (s : Str) : List Str := splitNNAux [] s

/-- The changelog value substituted by `_contents`:
`'\n\n'.join(f.read().split('\n\n')[:5])`. -/
def changelogs_value (s : Str) : Str := joinNN ((splitNN s).take 5)

/-- A directory tree: a file with contents, or a directory with an ordered
listing of named children (the order `os.listdir` yields them in). -/
inductive FSNode where
  | file (content : Str)
  | dir (children : List (Str × FSNode))

/-- The child of the given name, if any. -/
def childLookup (cs : List (Str × FSNode)) (name : Str) : Option FSNode :=
  match cs with
  | [] => none
  | (n, c) :: rest => if n = name then some c else childLookup rest name

/-- Replace the child of the given name, or append it: the effect of writing
at `dest/name`. -/
def childSet (cs : List (Str × FSNode)) (name : Str) (node : FSNode) :
    List (Str × FSNode) :=
  match cs with
  | [] => [(name, node)]
  | (n, c) :: rest =>
    if n = name then (n, node) :: rest else (n, c) :: childSet rest name node

mutual

/-- Model of `overwrite_dir(src, dest)` from `starterpack/build.py`, merging a
source node onto an optional destination node (`none` when nothing exists at
the destination path).  A source directory is created over nothing, merged
into an existing directory, and fails with `FileExistsError` (raised by
`os.makedirs`) over a file; a source file overwrites a file or fills an empty
slot, and fails with `IsADirectoryError` (raised by the `shutil.copy` write)
over a directory. -/
def overwrite_dir : FSNode → Option FSNode → Except Str FSNode
  | .file c, d =>
    match d with
    | some (.dir _) => .error (str "IsADirectoryError")
    | _ => .ok (.file c)
  | .dir cs, d =>
    match d with
    | some (.file _) => .error (str "FileExistsError")
    | some (.dir ds) => Except.map .dir (mergeChildren cs ds)
    | none => Except.map .dir (mergeChildren cs [])

/-- The `for f in os.listdir(src)` loop of `overwrite_dir`: merge each source
child in order into the evolving destination listing. -/
def mergeChildren : List (Str × FSNode) → List (Str × FSNode) →
    Except Str (List (Str × FSNode))
  | [], ds => .ok ds
  | (n, sc) :: rest, ds =>
    match overwrite_dir sc (childLookup ds n) with
    | .error e => .error e
    | .ok m => mergeChildren rest (childSet ds n m)

end

/-- Follow a relative path (a list of segments) down a tree. -/
def pathLookup : List Str → FSNode → Option FSNode
  | [], node => some node
  | _ :: _, .file _ => none
  | name :: rest, .dir cs =>
    match childLookup cs name with
    | some c => pathLookup rest c
    | none => none

/-- `pathLookup` through an optional node: nothing is reachable below an
absent node. -/
def optLookup (d : Option FSNode) (p : List Str) : Option FSNode :=
  match d with
  | none => none
  | some node => pathLookup p node

/-- Path lookup inside a directory listing: first the named child, then the
rest of the path. -/
def childPath (cs : List (Str × FSNode)) (name : Str) (rest : List Str) :
    Option FSNode :=
  match childLookup cs name with
  | some c => pathLookup rest c
  | none => none

/-- Sibling names are pairwise distinct. -/
def notDupNames : List Str → Bool
  | [] => true
  | n :: rest => !(rest.contains n) && notDupNames rest

mutual

/-- A well-formed tree, as any tree read from a real filesystem is: sibling
names are distinct at every level. -/
def wfNode : FSNode → Bool
  | .file _ => true
  | .dir cs => notDupNames (cs.map Prod.fst) && wfChildren cs

/-- All children are well-formed. -/
def wfChildren : List (Str × FSNode) → Bool
  | [] => true
  | (_, c) :: rest => wfNode c && wfChildren rest

end

/-- Model of `rough_simplify` from `starterpack/build.py` acting on a
directory listing: keep a file only when it is named `manifest.json`, keep a
directory only when it is named `data` or `raw`, delete everything else. -/
def rough_simplify (children : List (Str × FSNode)) : List (Str × FSNode) :=
  children.filter
    (fun p =>
      match p.2 with
      | .file _ => p.1 == str "manifest.json"
      | .dir _ => p.1 == str "data" || p.1 == str "raw")

/-- The flat filesystem used by the pipeline model: a list of path/contents
pairs, paths written as slash-joined strings relative to the working
directory. -/
abbrev FS := List (Str × Str)

/-- Whether a path lies in the destination root `build` that the pre-step of
`build_all` wipes. -/
def isUnderBuild (p : Str) : Bool :=
  p == str "build" || (str "build/").isPrefixOf p

/-- Model of `shutil.rmtree('build')`. -/
def rmtree_build (fs : FS) : FS := fs.filter (fun e => !(isUnderBuild e.1))

/-- Model of `os.path.isdir('build')` for the flat filesystem. -/
def hasBuildDir (fs : FS) : Bool := fs.any (fun e => isUnderBuild e.1)

/-- Write one file, overwriting any previous entry at that path. -/
def writeFile (fs : FS) (p c : Str) : FS :=
  fs.filter (fun e => e.1 != p) ++ [(p, c)]

/-- Write a batch of files in order. -/
def writeAll (fs : FS) (files : List (Str × Str)) : FS :=
  files.foldl (fun a e => writeFile a e.1 e.2) fs

/-- The destination tree of a filesystem state: its entries under `build`. -/
def restrictBuild (fs : FS) : FS := fs.filter (fun e => isUnderBuild e.1)

/-- The inputs of one pipeline run.  Modelled from the spec: the `component`
and `paths` modules of the repository are not under `src/`, so the catalog
and path constants they provide are abstracted.  `otherFiles` is the list of
files written by the pipeline steps other than `create_about` (extractions,
merges, simplifications and text transforms), which the spec's data-model
invariant — extraction output is a pure function of archive bytes, steps
share no state beyond the tree — makes a pure function of the catalog and the
archive bytes; `packVersion` is `paths.PACK_VERSION`; the remaining fields
are the template and catalog data consumed by `create_about`. -/
structure BuildInputs where
  otherFiles : List (Str × Str)
  aboutTxt : Str
  changelog : Str
  contentsTemplate : Str
  contentsKwargs : List (Str × Str)
  packVersion : Str

/-- The changelog written by `create_about`: the generated
`Version PACK_VERSION (date)` header line prepended to the changelog text,
where `date` is `datetime.date.today().isoformat()` at run time. -/
def pack_changelog (i : BuildInputs) (today : Str) : Str :=
  str "Version " ++ i.packVersion ++ str " (" ++ today ++ str ")" ++
    str "\n" ++ i.changelog

/-- Model of `create_about`: copy `about.txt`, write the date-stamped
changelog, and run the template fill for `contents.txt`, whose `changelogs`
value keeps the first five paragraphs of the changelog.  The about-area paths
follow the spec's fixed output layout. -/
def create_about_files (i : BuildInputs) (today : Str) :
    Except Str (List (Str × Str)) :=
  match fill_template i.contentsTemplate
      (i.contentsKwargs ++ [(str "changelogs", changelogs_value i.changelog)]) with
  | .error e => .error e
  | .ok contents =>
    .ok [(str "build/LNP/about/about.txt", i.aboutTxt),
      (str "build/LNP/about/changelog.txt", pack_changelog i today),
      (str "build/LNP/about/contents.txt", contents)]

/-- Model of `build_all`: delete the destination root when present, then run
the steps in order, each writing files that depend only on the run's inputs —
and, for `create_about`, on the current date.  A failing transform aborts the
pipeline. -/
def build_all (i : BuildInputs) (today : Str) (fs : FS) : Except Str FS :=
  let fs1 := if hasBuildDir fs then rmtree_build fs else fs
  match create_about_files i today with
  | .error e => .error e
  | .ok aboutFiles => .ok (writeAll (writeAll fs1 i.otherFiles) aboutFiles)

instance {ε α : Type _} [DecidableEq ε] [DecidableEq α] : DecidableEq (Except ε α) :=
  fun x y =>
    match x, y with
    | .error e, .error f => decidable_of_iff (e = f) (by simp)
    | .error _, .ok _ => isFalse (by simp)
    | .ok _, .error _ => isFalse (by simp)
    | .ok a, .ok b => decidable_of_iff (a = b) (by simp)

/-- C1 counterexample: a 1-entry archive with path `X/Y/file.txt` extracts to
`X/Y/file.txt`, not to `file.txt`: the single-entry guard breaks out of the
stripping loop before any segment is removed, so the shared wrapper segments
`X` and `Y` are kept, contrary to the claim. -/
theorem unzip_to_single_entry_counterexample :
    unzip_to (str "pack.zip") true [str "X/Y/file.txt"] = .ok [str "X/Y/file.txt"] ∧
    unzip_to (str "pack.zip") true [str "X/Y/file.txt"] ≠ .ok [str "file.txt"] := by
  decide

/-- C1 (amended): for every zip archive whose entry list (after excluding
directory entries) contains exactly one entry, extraction writes the entry at
its full original relative path: the single-entry guard fires on the first
iteration of the stripping loop, so no segment at all is stripped from a lone
entry — not even shared wrapper segments. -/
theorem unzip_to_single_entry_no_strip (fname name : Str)
    (hzip : (str ".zip").isSuffixOf fname = true)
    (hdir : (str "/").isSuffixOf name = false) :
    unzip_to fname true [name] = .ok [name] := by
  simp [unzip_to, hzip, hdir, stripContents, stripLoop, totalLen]

/-- Witness for `unzip_to_single_entry_no_strip` at the claim's own input. -/
theorem unzip_to_single_entry_no_strip_witness :
    unzip_to (str "pack.zip") true [str "X/Y/file.txt"] = .ok [str "X/Y/file.txt"] :=
  unzip_to_single_entry_no_strip (str "pack.zip") (str "X/Y/file.txt")
    (by decide) (by decide)

/-- C6: `unzip_to` fails with the unsupported-format error when the filename
ends in neither `.zip` nor `.exe`, and with the malformed-archive error when
it ends in `.zip` but fails the `zipfile.is_zipfile` integrity check; in both
cases the result is an `Except.error`, i.e. no entry is written. -/
theorem unzip_to_error_taxonomy :
    (∀ (fname : Str) (isZipValid : Bool) (names : List Str),
        (str ".zip").isSuffixOf fname = false →
        (str ".exe").isSuffixOf fname = false →
        unzip_to fname isZipValid names =
          .error (.UnsupportedFormatError
            (str "Only .zip and .exe files are handled by unzip_to()"))) ∧
    (∀ (fname : Str) (names : List Str),
        (str ".zip").isSuffixOf fname = true →
        unzip_to fname false names =
          .error (.MalformedArchiveError
            (fname ++ str " is not a valid .zip file."))) := by
  constructor
  · intro fname isZipValid names h1 h2
    simp [unzip_to, h1, h2]
  · intro fname names h1
    simp [unzip_to, h1]

/-- Witness for `unzip_to_error_taxonomy` on concrete filenames. -/
theorem unzip_to_error_taxonomy_witness :
    unzip_to (str "Dorven Realms.rar") true [str "a.txt"] =
      .error (.UnsupportedFormatError
        (str "Only .zip and .exe files are handled by unzip_to()")) ∧
    unzip_to (str "broken.zip") false [str "a.txt"] =
      .error (.MalformedArchiveError
        (str "broken.zip" ++ str " is not a valid .zip file.")) :=
  ⟨unzip_to_error_taxonomy.1 (str "Dorven Realms.rar") true [str "a.txt"]
      (by decide) (by decide),
    unzip_to_error_taxonomy.2 (str "broken.zip") [str "a.txt"] (by decide)⟩

/-- C2 counterexample: a repeated header's entry is reset, not appended to:
`od[line], lastkey = [], line` assigns a fresh empty list to the existing key,
so the lines following the later occurrence replace the earlier ones. -/
theorem keybinds_repeated_header_counterexample :
    keybinds_serialiser [str "[BIND:A]", str "k1", str "[BIND:A]", str "k3"] =
      [(str "[BIND:A]", [str "k3"])] ∧
    keybinds_serialiser [str "[BIND:A]", str "k1", str "[BIND:A]", str "k3"] ≠
      [(str "[BIND:A]", [str "k1", str "k3"])] := by
  decide

/-- C2 (amended): the parser produces an ordered mapping from header lines to
the non-header lines following them, preserving first-seen header order, and
when the same header occurs more than once the non-header lines following the
later occurrence replace the existing entry (the entry is reset to empty and
refilled), while the header keeps its first-seen position.  Shown on the
general shape `h1, a, h2, b, h1, c` for arbitrary pre-stripped lines. -/
theorem keybinds_repeated_header_resets (h1 h2 a b c : Str)
    (t1 : trimChars h1 = h1) (p1 : BINDmarker.isPrefixOf h1 = true)
    (e1 : h1.isEmpty = false)
    (t2 : trimChars h2 = h2) (p2 : BINDmarker.isPrefixOf h2 = true)
    (e2 : h2.isEmpty = false)
    (hne : h1 ≠ h2)
    (ta : trimChars a = a) (pa : BINDmarker.isPrefixOf a = false)
    (ea : a.isEmpty = false)
    (tb : trimChars b = b) (pb : BINDmarker.isPrefixOf b = false)
    (eb : b.isEmpty = false)
    (tc : trimChars c = c) (pc : BINDmarker.isPrefixOf c = false)
    (ec : c.isEmpty = false) :
    keybinds_serialiser [h1, a, h2, b, h1, c] = [(h1, [c]), (h2, [b])] := by
  simp [keybinds_serialiser, keybindsAux, odSet, odAppendVal, t1, p1, e1, t2, p2,
    e2, ta, pa, ea, tb, pb, eb, tc, pc, ec, hne, Ne.symm hne]

/-- Witness for `keybinds_repeated_header_resets` at concrete lines. -/
theorem keybinds_repeated_header_resets_witness :
    keybinds_serialiser
        [str "[BIND:A]", str "k1", str "[BIND:B]", str "k2", str "[BIND:A]", str "k3"] =
      [(str "[BIND:A]", [str "k3"]), (str "[BIND:B]", [str "k2"])] :=
  keybinds_repeated_header_resets (str "[BIND:A]") (str "[BIND:B]")
    (str "k1") (str "k2") (str "k3")
    (by decide) (by decide) (by decide) (by decide) (by decide)
    (by decide) (by decide) (by decide) (by decide) (by decide)
    (by decide) (by decide) (by decide) (by decide) (by decide)
    (by decide)

/-- The keybinding merge fold, generalized over its accumulator: the output is
the accumulator followed by, for each vanilla header in order, the header and
then the override entry when present, else the vanilla entry. -/
theorem make_keybindings_lines_foldl_aux (cfg : List (Str × List Str)) :
    ∀ (vanbinds : List (Str × List Str)) (acc : List Str),
      vanbinds.foldl
          (fun lines p =>
            (lines ++ [p.1]) ++
              (match List.lookup p.1 cfg with
                | some vs => vs
                | none => p.2))
          acc =
        acc ++ (vanbinds.map (fun p => p.1 :: ((List.lookup p.1 cfg).getD p.2))).flatten := by
  intro vanbinds
  induction vanbinds with
  | nil => simp
  | cons p rest ih =>
    intro acc
    simp only [List.foldl_cons, ih, List.map_cons, List.flatten]
    cases List.lookup p.1 cfg <;> simp

/-- Looking up a key that is among `names` is unaffected by filtering the
association list down to the entries whose key is among `names`. -/
theorem lookup_filter_contains (names : List Str) (k : Str) (h : k ∈ names) :
    ∀ cfg : List (Str × List Str),
      List.lookup k (cfg.filter (fun q => names.contains q.1)) = List.lookup k cfg := by
  intro cfg
  induction cfg with
  | nil => simp
  | cons q rest ih =>
    by_cases hqeq : k = q.1
    · subst hqeq
      simp [List.filter_cons, h, List.lookup]
    · have hk : (k == q.1) = false := beq_eq_false_iff_ne.mpr hqeq
      by_cases hq : q.1 ∈ names
      · simp [List.filter_cons, hq, List.lookup, hk]
        simpa using ih
      · simp [List.filter_cons, hq, List.lookup, hk]
        simpa using ih

/-- C3: the block-merge output iterates the baseline headers in baseline
order, emitting each header followed by the override's entry when the
override contains the header and the baseline's own entry otherwise (first
conjunct); entries of the override whose header is not a baseline header
never influence the output (second conjunct); and the spec's concrete
baseline/override pair merges as stated (third conjunct). -/
theorem make_keybindings_merge_spec :
    (∀ vanbinds cfg : List (Str × List Str),
        make_keybindings_lines vanbinds cfg =
          (vanbinds.map (fun p => p.1 :: ((List.lookup p.1 cfg).getD p.2))).flatten) ∧
    (∀ vanbinds cfg : List (Str × List Str),
        make_keybindings_lines vanbinds cfg =
          make_keybindings_lines vanbinds
            (cfg.filter (fun q => (vanbinds.map Prod.fst).contains q.1))) ∧
    make_keybindings_lines
        [(str "[BIND:A]", [str "k1"]), (str "[BIND:B]", [str "k2"])]
        [(str "[BIND:A]", [str "k3"])] =
      [str "[BIND:A]", str "k3", str "[BIND:B]", str "k2"] := by
  refine ⟨?_, ?_, by decide⟩
  · intro vanbinds cfg
    unfold make_keybindings_lines
    rw [make_keybindings_lines_foldl_aux]
    simp
  · intro vanbinds cfg
    unfold make_keybindings_lines
    rw [make_keybindings_lines_foldl_aux, make_keybindings_lines_foldl_aux]
    simp only [List.nil_append]
    congr 1
    apply List.map_congr_left
    intro p hp
    have hmem : p.1 ∈ vanbinds.map Prod.fst := List.mem_map_of_mem Prod.fst hp
    rw [lookup_filter_contains _ _ hmem]

/-- Lines whose stripped form is not a header leave the parser unchanged as
long as no header has been seen yet (`lastkey` is still `none`). -/
theorem keybindsAux_skip_nonheaders (ls1 : List Str)
    (h : ∀ l ∈ ls1, BINDmarker.isPrefixOf (trimChars l) = false) :
    ∀ (ls2 : List Str) (od : List (Str × List Str)),
      keybindsAux (ls1 ++ ls2) od none = keybindsAux ls2 od none := by
  induction ls1 with
  | nil => intro ls2 od; simp
  | cons l rest ih =>
    intro ls2 od
    have hl := h l (List.mem_cons_self l rest)
    have hr : ∀ x ∈ rest, BINDmarker.isPrefixOf (trimChars x) = false :=
      fun x hx => h x (List.mem_cons_of_mem l hx)
    simp only [List.cons_append, keybindsAux, hl, Bool.and_false, ite_self]
    simp only [Bool.false_eq_true, if_false, ite_self]
    exact ih hr ls2 od

/-- A line that strips to nothing is skipped by the parser. -/
theorem keybindsAux_skip_blank (bl : Str) (hb : trimChars bl = [])
    (ls : List Str) (od : List (Str × List Str)) (lk : Option Str) :
    keybindsAux (bl :: ls) od lk = keybindsAux ls od lk := by
  simp [keybindsAux, hb]

/-- The parser is a left fold, so rewriting the tail of the input rewrites
the result, whatever the state reached after the shared prefix. -/
theorem keybindsAux_append_congr (tail tail2 : List Str)
    (h : ∀ od lk, keybindsAux tail od lk = keybindsAux tail2 od lk) :
    ∀ (ls1 : List Str) (od : List (Str × List Str)) (lk : Option Str),
      keybindsAux (ls1 ++ tail) od lk = keybindsAux (ls1 ++ tail2) od lk := by
  intro ls1
  induction ls1 with
  | nil => intro od lk; simpa using h od lk
  | cons l rest ih =>
    intro od lk
    simp only [List.cons_append, keybindsAux]
    by_cases h1 : (!(trimChars l).isEmpty && BINDmarker.isPrefixOf (trimChars l)) = true
    · simp [h1, ih]
    · by_cases h2 : (!(trimChars l).isEmpty) = true
      · simp [h1, h2, ih]
      · simp [h1, h2, ih]

/-- Membership in `odSet od k`: either a (possibly reset) entry of `od`, or
the fresh empty entry for `k`. -/
theorem mem_odSet {od : List (Str × List Str)} {k : Str} {q : Str × List Str}
    (h : q ∈ odSet od k) :
    (∃ p ∈ od, q.1 = p.1 ∧ (q.2 = p.2 ∨ q.2 = [])) ∨ (q.1 = k ∧ q.2 = []) := by
  unfold odSet at h
  by_cases ha : od.any (fun p => p.1 == k) = true
  · rw [if_pos ha] at h
    obtain ⟨p, hp, hq⟩ := List.mem_map.mp h
    by_cases hpk : (p.1 == k) = true
    · rw [if_pos hpk] at hq
      subst hq
      exact Or.inl ⟨p, hp, rfl, Or.inr rfl⟩
    · rw [if_neg hpk] at hq
      subst hq
      exact Or.inl ⟨p, hp, rfl, Or.inl rfl⟩
  · rw [if_neg ha] at h
    rcases List.mem_append.mp h with h | h
    · exact Or.inl ⟨q, h, rfl, Or.inl rfl⟩
    · simp only [List.mem_singleton] at h
      subst h
      exact Or.inr ⟨rfl, rfl⟩

/-- Membership in `odAppendVal od k v`: an entry of `od`, possibly with `v`
appended to its line list. -/
theorem mem_odAppendVal {od : List (Str × List Str)} {k v : Str}
    {q : Str × List Str} (h : q ∈ odAppendVal od k v) :
    ∃ p ∈ od, q.1 = p.1 ∧ (q.2 = p.2 ∨ q.2 = p.2 ++ [v]) := by
  unfold odAppendVal at h
  obtain ⟨p, hp, hq⟩ := List.mem_map.mp h
  by_cases hpk : (p.1 == k) = true
  · rw [if_pos hpk] at hq
    subst hq
    exact ⟨p, hp, rfl, Or.inr rfl⟩
  · rw [if_neg hpk] at hq
    subst hq
    exact ⟨p, hp, rfl, Or.inl rfl⟩

/-- Every string stored by the parser loop — key or entry line — comes from
the initial dict or is the non-empty stripped form of some input line. -/
theorem keybindsAux_mem_source :
    ∀ (ls : List Str) (od : List (Str × List Str)) (lk : Option Str)
      (q : Str × List Str), q ∈ keybindsAux ls od lk →
      ∀ x : Str, (x = q.1 ∨ x ∈ q.2) →
        (∃ p ∈ od, x = p.1 ∨ x ∈ p.2) ∨
        ∃ l ∈ ls, x = trimChars l ∧ trimChars l ≠ [] := by
  intro ls
  induction ls with
  | nil =>
    intro od lk q hq x hx
    simp only [keybindsAux] at hq
    exact Or.inl ⟨q, hq, hx⟩
  | cons l rest ih =>
    intro od lk q hq x hx
    simp only [keybindsAux] at hq
    by_cases h1 : (!(trimChars l).isEmpty && BINDmarker.isPrefixOf (trimChars l)) = true
    · rw [if_pos h1] at hq
      have hne : trimChars l ≠ [] := by
        intro hc
        rw [hc] at h1
        simp at h1
      rcases ih _ _ q hq x hx with ⟨p, hp, hxp⟩ | ⟨l', hl', hx'⟩
      · rcases mem_odSet hp with ⟨p0, hp0, he1, he2⟩ | ⟨he1, he2⟩
        · rcases hxp with hxp | hxp
          · exact Or.inl ⟨p0, hp0, Or.inl (hxp.trans he1)⟩
          · rcases he2 with he2 | he2
            · exact Or.inl ⟨p0, hp0, Or.inr (he2 ▸ hxp)⟩
            · rw [he2] at hxp
              exact absurd hxp (List.not_mem_nil x)
        · rcases hxp with hxp | hxp
          · exact Or.inr ⟨l, List.mem_cons_self l rest, hxp.trans he1, hne⟩
          · rw [he2] at hxp
            exact absurd hxp (List.not_mem_nil x)
      · exact Or.inr ⟨l', List.mem_cons_of_mem l hl', hx'⟩
    · rw [if_neg h1] at hq
      by_cases h2 : (!(trimChars l).isEmpty) = true
      · rw [if_pos h2] at hq
        have hne : trimChars l ≠ [] := by
          intro hc
          rw [hc] at h2
          simp at h2
        cases lk with
        | none =>
          rcases ih _ _ q hq x hx with hleft | ⟨l', hl', hx'⟩
          · exact Or.inl hleft
          · exact Or.inr ⟨l', List.mem_cons_of_mem l hl', hx'⟩
        | some k =>
          rcases ih _ _ q hq x hx with ⟨p, hp, hxp⟩ | ⟨l', hl', hx'⟩
          · obtain ⟨p0, hp0, he1, he2⟩ := mem_odAppendVal hp
            rcases hxp with hxp | hxp
            · exact Or.inl ⟨p0, hp0, Or.inl (hxp.trans he1)⟩
            · rcases he2 with he2 | he2
              · exact Or.inl ⟨p0, hp0, Or.inr (he2 ▸ hxp)⟩
              · rw [he2] at hxp
                rcases List.mem_append.mp hxp with hxp | hxp
                · exact Or.inl ⟨p0, hp0, Or.inr hxp⟩
                · simp only [List.mem_singleton] at hxp
                  exact Or.inr ⟨l, List.mem_cons_self l rest, hxp, hne⟩
          · exact Or.inr ⟨l', List.mem_cons_of_mem l hl', hx'⟩
      · rw [if_neg h2] at hq
        rcases ih _ _ q hq x hx with hleft | ⟨l', hl', hx'⟩
        · exact Or.inl hleft
        · exact Or.inr ⟨l', List.mem_cons_of_mem l hl', hx'⟩

/-- C9: the keybinding parser silently discards non-blank, non-header lines
that appear before the first header (first conjunct: such a prefix has no
effect on the result), drops blank lines anywhere (second conjunct), and
strips every kept line of surrounding whitespace before storing it (third
conjunct: every stored key and entry line is the non-empty stripped form of
some input line). -/
theorem keybinds_serialiser_drop_and_trim :
    (∀ ls1 ls2 : List Str,
        (∀ l ∈ ls1, BINDmarker.isPrefixOf (trimChars l) = false) →
        keybinds_serialiser (ls1 ++ ls2) = keybinds_serialiser ls2) ∧
    (∀ (ls1 ls2 : List Str) (bl : Str), trimChars bl = [] →
        keybinds_serialiser (ls1 ++ bl :: ls2) = keybinds_serialiser (ls1 ++ ls2)) ∧
    (∀ (ls : List Str) (q : Str × List Str), q ∈ keybinds_serialiser ls →
        ∀ x : Str, (x = q.1 ∨ x ∈ q.2) →
          ∃ l ∈ ls, x = trimChars l ∧ trimChars l ≠ []) := by
  refine ⟨?_, ?_, ?_⟩
  · intro ls1 ls2 h
    exact keybindsAux_skip_nonheaders ls1 h ls2 []
  · intro ls1 ls2 bl hb
    exact keybindsAux_append_congr (bl :: ls2) ls2
      (fun od lk => keybindsAux_skip_blank bl hb ls2 od lk) ls1 [] none
  · intro ls q hq x hx
    rcases keybindsAux_mem_source ls [] none q hq x hx with ⟨p, hp, _⟩ | h
    · exact absurd hp (List.not_mem_nil p)
    · exact h

/-- Witness for `keybinds_serialiser_drop_and_trim` on a concrete prefix of
stray and blank lines before the first header. -/
theorem keybinds_serialiser_drop_and_trim_witness :
    keybinds_serialiser [str " stray ", str "", str "[BIND:A]", str " k1 "] =
      keybinds_serialiser [str "[BIND:A]", str " k1 "] :=
  keybinds_serialiser_drop_and_trim.1 [str " stray ", str ""]
    [str "[BIND:A]", str " k1 "] (by decide)

/-- C4: if the mapping used to fill the contents template has a key whose
placeholder does not occur in the template, `_contents` raises the validation
error naming a missing key (the first one in mapping order) and the
destination contents file is left untouched, because the output is opened for
writing only after the check loop completes. -/
theorem fill_template_missing_key (template : Str) (kwargs : List (Str × Str))
    (prev : Option Str) (k v : Str) (hk : (k, v) ∈ kwargs)
    (hmiss : containsSub (placeholderOf k) template = false) :
    (∃ p ∈ kwargs, containsSub (placeholderOf p.1) template = false ∧
        fill_template template kwargs =
          .error (p.1 ++ str " not listed in base/docs/contents.txt")) ∧
    contents_file template kwargs prev = prev := by
  have hsome : (kwargs.find?
      (fun p => !(containsSub (placeholderOf p.1) template))).isSome := by
    rw [List.find?_isSome]
    exact ⟨(k, v), hk, by simp [hmiss]⟩
  obtain ⟨p, hp⟩ := Option.isSome_iff_exists.mp hsome
  have hpm : p ∈ kwargs := List.mem_of_find?_eq_some hp
  have hpp := List.find?_some hp
  refine ⟨⟨p, hpm, by simpa using hpp, ?_⟩, ?_⟩
  · simp [fill_template, hp]
  · simp [contents_file, fill_template, hp]

/-- Witness for `fill_template_missing_key`: the template lists `graphics`
but not `bonus`, so validation fails and the previous contents survive. -/
theorem fill_template_missing_key_witness :
    (∃ p ∈ [(str "graphics", str "G"), (str "bonus", str "B")],
        containsSub (placeholderOf p.1) (str "list: \x7bgraphics\x7d") = false ∧
        fill_template (str "list: \x7bgraphics\x7d")
            [(str "graphics", str "G"), (str "bonus", str "B")] =
          .error (p.1 ++ str " not listed in base/docs/contents.txt")) ∧
    contents_file (str "list: \x7bgraphics\x7d")
        [(str "graphics", str "G"), (str "bonus", str "B")]
        (some (str "old contents")) = some (str "old contents") :=
  fill_template_missing_key (str "list: \x7bgraphics\x7d")
    [(str "graphics", str "G"), (str "bonus", str "B")]
    (some (str "old contents")) (str "bonus") (str "B") (by decide) (by decide)

/-- The paragraph splitter always returns at least one piece, and joining the
pieces with blank lines reconstructs the accumulator followed by the rest of
the input; instantiated at an empty accumulator this is `join ∘ split = id`. -/
theorem joinNN_splitNNAux :
    ∀ n (s acc : Str), s.length ≤ n →
      splitNNAux acc s ≠ [] ∧ joinNN (splitNNAux acc s) = acc.reverse ++ s := by
  intro n
  induction n with
  | zero =>
    intro s acc h
    have hs : s = [] := List.eq_nil_of_length_eq_zero (Nat.le_zero.mp h)
    subst hs
    simp [splitNNAux, joinNN]
  | succ n ih =>
    intro s acc hlen
    rcases s with _ | ⟨c1, _ | ⟨c2, rest⟩⟩
    · simp [splitNNAux, joinNN]
    · simp [splitNNAux, joinNN]
    · by_cases hc : (c1 == '\n' && c2 == '\n') = true
      · obtain ⟨hc1, hc2⟩ := Bool.and_eq_true_iff.mp hc
        have hc1 : c1 = '\n' := eq_of_beq hc1
        have hc2 : c2 = '\n' := eq_of_beq hc2
        have hrest : rest.length ≤ n := by
          simp only [List.length_cons] at hlen
          omega
        obtain ⟨hne, hjoin⟩ := ih rest [] hrest
        simp only [splitNNAux, if_pos hc]
        obtain ⟨q, ps, hqs⟩ := List.exists_cons_of_ne_nil hne
        rw [hqs] at hjoin ⊢
        refine ⟨by simp, ?_⟩
        simp only [joinNN, List.reverse_nil, List.nil_append] at hjoin ⊢
        rw [hjoin, hc1, hc2]
      · have hrest : (c2 :: rest).length ≤ n := by
          simp only [List.length_cons] at hlen ⊢
          omega
        obtain ⟨hne, hjoin⟩ := ih (c2 :: rest) (c1 :: acc) hrest
        simp only [splitNNAux, if_neg hc]
        refine ⟨hne, ?_⟩
        rw [hjoin]
        simp

/-- C10: the changelog value substituted by `_contents` is the blank-line
join of at most the first five paragraphs of the changelog text: the full
text is the join of the kept paragraphs together with the dropped later ones
(second conjunct), the substituted value keeps only the first five (first
conjunct), and when there are at most five paragraphs the whole text is kept
(third conjunct). -/
theorem changelogs_first_five :
    (∀ text : Str, changelogs_value text = joinNN ((splitNN text).take 5)) ∧
    (∀ text : Str,
        joinNN ((splitNN text).take 5 ++ (splitNN text).drop 5) = text) ∧
    (∀ text : Str, (splitNN text).length ≤ 5 → changelogs_value text = text) := by
  refine ⟨fun text => rfl, ?_, ?_⟩
  · intro text
    rw [List.take_append_drop]
    simpa using (joinNN_splitNNAux text.length text [] le_rfl).2
  · intro text h
    have := (joinNN_splitNNAux text.length text [] le_rfl).2
    simp only [changelogs_value, List.take_of_length_le h]
    simpa using this

/-- Witness for `changelogs_first_five` on a two-paragraph changelog. -/
theorem changelogs_first_five_witness :
    changelogs_value (str "one\n\ntwo") = str "one\n\ntwo" :=
  changelogs_first_five.2.2 (str "one\n\ntwo") (by decide)

/-- Setting a child and looking it up by the same name yields the new node. -/
theorem childLookup_childSet_self (cs : List (Str × FSNode)) (name : Str)
    (m : FSNode) : childLookup (childSet cs name m) name = some m := by
  induction cs with
  | nil => simp [childSet, childLookup]
  | cons p rest ih =>
    obtain ⟨n, c⟩ := p
    by_cases h : n = name
    · simp [childSet, h, childLookup]
    · simp [childSet, h, childLookup, ih]

/-- Setting a child leaves lookups of other names unchanged. -/
theorem childLookup_childSet_ne (cs : List (Str × FSNode)) (name name2 : Str)
    (m : FSNode) (h : name ≠ name2) :
    childLookup (childSet cs name m) name2 = childLookup cs name2 := by
  induction cs with
  | nil => simp [childSet, childLookup, h]
  | cons p rest ih =>
    obtain ⟨n, c⟩ := p
    by_cases hn : n = name
    · subst hn
      simp [childSet, childLookup, h, ih]
    · simp [childSet, hn, childLookup, ih]

/-- A name that is not among the listing's names has no child. -/
theorem childLookup_eq_none (cs : List (Str × FSNode)) (n : Str)
    (h : (cs.map Prod.fst).contains n = false) : childLookup cs n = none := by
  induction cs with
  | nil => rfl
  | cons p rest ih =>
    obtain ⟨n0, c⟩ := p
    simp only [List.map_cons, List.contains_cons, Bool.or_eq_false_iff] at h
    have hne : n0 ≠ n := (beq_eq_false_iff_ne.mp h.1).symm
    simp only [childLookup]
    rw [if_neg hne]
    exact ih h.2

/-- Frame property of `overwrite_dir`, proved jointly with the corresponding
property of the child-merging loop by strong induction on the size of the
source: on success, any path absent from the source reads the same in the
result as in the destination. -/
theorem overwrite_dir_frame_aux :
    ∀ N : Nat,
      (∀ (src : FSNode) (d : Option FSNode) (r : FSNode),
          sizeOf src ≤ N → wfNode src = true → overwrite_dir src d = .ok r →
          ∀ p : List Str, pathLookup p src = none →
            pathLookup p r = optLookup d p) ∧
      (∀ (cs ds rs : List (Str × FSNode)),
          sizeOf cs ≤ N → notDupNames (cs.map Prod.fst) = true →
          wfChildren cs = true → mergeChildren cs ds = .ok rs →
          ∀ (name : Str) (rest : List Str), childPath cs name rest = none →
            childPath rs name rest = childPath ds name rest) := by
  intro N
  induction N using Nat.strong_induction_on with
  | _ N ih =>
    constructor
    · intro src d r hsize hwf hok p hnone
      rcases src with c | cs
      · rcases d with _ | node
        · simp only [overwrite_dir, Except.ok.injEq] at hok
          subst hok
          rcases p with _ | ⟨x, xs⟩
          · simp [pathLookup] at hnone
          · simp [pathLookup, optLookup]
        · rcases node with c2 | ds
          · simp only [overwrite_dir, Except.ok.injEq] at hok
            subst hok
            rcases p with _ | ⟨x, xs⟩
            · simp [pathLookup] at hnone
            · simp [pathLookup, optLookup]
          · simp [overwrite_dir] at hok
      · have hcs_lt : sizeOf cs < N := by
          have h1 : sizeOf (FSNode.dir cs) = 1 + sizeOf cs := by
            simp
          omega
        have hwf2 : notDupNames (cs.map Prod.fst) = true ∧ wfChildren cs = true := by
          simpa [wfNode, Bool.and_eq_true] using hwf
        rcases d with _ | node
        · simp only [overwrite_dir] at hok
          cases hmc : mergeChildren cs [] with
          | error e => rw [hmc] at hok; simp [Except.map] at hok
          | ok rs =>
            rw [hmc] at hok
            simp only [Except.map, Except.ok.injEq] at hok
            subst hok
            rcases p with _ | ⟨x, xs⟩
            · simp [pathLookup] at hnone
            · have hcp : childPath cs x xs = none := by
                simpa [pathLookup, childPath] using hnone
              have hres := (ih (sizeOf cs) hcs_lt).2 cs [] rs le_rfl
                hwf2.1 hwf2.2 hmc x xs hcp
              simpa [pathLookup, childPath, optLookup, childLookup] using hres
        · rcases node with c2 | ds
          · simp [overwrite_dir] at hok
          · simp only [overwrite_dir] at hok
            cases hmc : mergeChildren cs ds with
            | error e => rw [hmc] at hok; simp [Except.map] at hok
            | ok rs =>
              rw [hmc] at hok
              simp only [Except.map, Except.ok.injEq] at hok
              subst hok
              rcases p with _ | ⟨x, xs⟩
              · simp [pathLookup] at hnone
              · have hcp : childPath cs x xs = none := by
                  simpa [pathLookup, childPath] using hnone
                have hres := (ih (sizeOf cs) hcs_lt).2 cs ds rs le_rfl
                  hwf2.1 hwf2.2 hmc x xs hcp
                simpa [pathLookup, childPath, optLookup] using hres
    · intro cs ds rs hsize hnodup hwfc hok name rest hnone
      rcases cs with _ | ⟨⟨n0, sc⟩, cs2⟩
      · simp only [mergeChildren, Except.ok.injEq] at hok
        subst hok
        rfl
      · simp only [mergeChildren] at hok
        cases hm : overwrite_dir sc (childLookup ds n0) with
        | error e => rw [hm] at hok; simp at hok
        | ok m =>
          rw [hm] at hok
          have hsc_lt : sizeOf sc < N := by
            have : sizeOf ((n0, sc) :: cs2) = 1 + (1 + sizeOf n0 + sizeOf sc) + sizeOf cs2 := by
              simp
            omega
          have hcs2_lt : sizeOf cs2 < N := by
            have : sizeOf ((n0, sc) :: cs2) = 1 + (1 + sizeOf n0 + sizeOf sc) + sizeOf cs2 := by
              simp
            omega
          have hnodup2 : (cs2.map Prod.fst).contains n0 = false ∧
              notDupNames (cs2.map Prod.fst) = true := by
            simp only [List.map_cons, notDupNames, Bool.and_eq_true,
              Bool.not_eq_true'] at hnodup
            exact hnodup
          have hwfc2 : wfNode sc = true ∧ wfChildren cs2 = true := by
            simpa [wfChildren, Bool.and_eq_true] using hwfc
          by_cases hname : name = n0
          · subst hname
            have hsc_none : pathLookup rest sc = none := by
              simpa [childPath, childLookup] using hnone
            have hT := (ih (sizeOf sc) hsc_lt).1 sc (childLookup ds name) m le_rfl
              hwfc2.1 hm rest hsc_none
            have hcs2_none : childPath cs2 name rest = none := by
              simp [childPath, childLookup_eq_none cs2 name hnodup2.1]
            have hMC := (ih (sizeOf cs2) hcs2_lt).2 cs2 (childSet ds name m) rs le_rfl
              hnodup2.2 hwfc2.2 hok name rest hcs2_none
            rw [hMC]
            simp only [childPath, childLookup_childSet_self, hT, optLookup]
            cases childLookup ds name <;> simp [optLookup]
          · have hcs2_none : childPath cs2 name rest = none := by
              have : childLookup ((n0, sc) :: cs2) name = childLookup cs2 name := by
                simp [childLookup, Ne.symm hname]
              simpa [childPath, this] using hnone
            have hMC := (ih (sizeOf cs2) hcs2_lt).2 cs2 (childSet ds n0 m) rs le_rfl
              hnodup2.2 hwfc2.2 hok name rest hcs2_none
            rw [hMC]
            simp [childPath, childLookup_childSet_ne ds n0 name m (fun hh => hname hh.symm)]

/-- C7: after a successful `overwrite_dir(src, dest)` on a well-formed source
tree, every relative path absent from the source reads exactly as it did in
the destination: the merge never deletes or modifies a destination entry with
no counterpart in the source. -/
theorem overwrite_dir_frame (src dest r : FSNode) (p : List Str)
    (hwf : wfNode src = true)
    (hok : overwrite_dir src (some dest) = .ok r)
    (hnone : pathLookup p src = none) :
    pathLookup p r = pathLookup p dest := by
  have h := (overwrite_dir_frame_aux (sizeOf src)).1 src (some dest) r le_rfl
    hwf hok p hnone
  simpa [optLookup] using h

/-- Witness for `overwrite_dir_frame`: merging a directory containing only
`a` onto a directory containing `b` leaves `b` readable with its old
contents. -/
theorem overwrite_dir_frame_witness :
    pathLookup [str "b"]
        (FSNode.dir [(str "b", FSNode.file (str "old")), (str "a", FSNode.file (str "new"))]) =
      pathLookup [str "b"] (FSNode.dir [(str "b", FSNode.file (str "old"))]) :=
  overwrite_dir_frame
    (FSNode.dir [(str "a", FSNode.file (str "new"))])
    (FSNode.dir [(str "b", FSNode.file (str "old"))])
    (FSNode.dir [(str "b", FSNode.file (str "old")), (str "a", FSNode.file (str "new"))])
    [str "b"]
    (by simp [wfNode, wfChildren, notDupNames])
    (by
      simp [overwrite_dir, mergeChildren, childLookup, childSet, Except.map]
      decide)
    (by
      simp only [pathLookup, childLookup]
      rw [if_neg (by decide)])

/-- C8: `rough_simplify` leaves at the top level only entries named
`manifest.json` (a file), `data` or `raw` (directories) — first conjunct —
and an entry survives exactly when it is such an entry of the original
listing, carried over identically with its whole subtree untouched (second
conjunct). -/
theorem rough_simplify_spec :
    (∀ (cs : List (Str × FSNode)) (q : Str × FSNode), q ∈ rough_simplify cs →
        q.1 = str "manifest.json" ∨ q.1 = str "data" ∨ q.1 = str "raw") ∧
    (∀ (cs : List (Str × FSNode)) (q : Str × FSNode),
        q ∈ rough_simplify cs ↔
          q ∈ cs ∧
            (match q.2 with
              | .file _ => q.1 = str "manifest.json"
              | .dir _ => q.1 = str "data" ∨ q.1 = str "raw")) := by
  constructor
  · intro cs q hq
    have hpred := (List.mem_filter.mp hq).2
    rcases q with ⟨n, c | c⟩
    · simp only [beq_iff_eq] at hpred
      exact Or.inl hpred
    · simp only [Bool.or_eq_true, beq_iff_eq] at hpred
      exact Or.inr hpred
  · intro cs q
    rw [rough_simplify, List.mem_filter]
    rcases q with ⟨n, c | c⟩ <;> simp

/-- Witness for `rough_simplify_spec`: `manifest.json` survives the
simplification of a mixed listing. -/
theorem rough_simplify_spec_witness :
    (str "manifest.json", FSNode.file (str "m")) ∈
      rough_simplify
        [(str "junk.txt", FSNode.file (str "j")),
          (str "manifest.json", FSNode.file (str "m")),
          (str "extras", FSNode.dir [])] :=
  (rough_simplify_spec.2
      [(str "junk.txt", FSNode.file (str "j")),
        (str "manifest.json", FSNode.file (str "m")),
        (str "extras", FSNode.dir [])]
      (str "manifest.json", FSNode.file (str "m"))).mpr
    ⟨by simp, by simp⟩

/-- Writing one file and restricting to the destination root: a write under
`build` lands in the restricted view, any other write vanishes from it. -/
theorem restrictBuild_writeFile (fs : FS) (p c : Str) :
    restrictBuild (writeFile fs p c) =
      if isUnderBuild p = true then writeFile (restrictBuild fs) p c
      else restrictBuild fs := by
  by_cases hp : isUnderBuild p = true
  · rw [if_pos hp]
    unfold restrictBuild writeFile
    rw [List.filter_append, List.filter_filter, List.filter_filter]
    congr 1
    · apply List.filter_congr
      intro e _
      exact Bool.and_comm _ _
    · simp [hp]
  · rw [if_neg hp]
    unfold restrictBuild writeFile
    rw [List.filter_append, List.filter_filter]
    have h1 : ∀ e ∈ fs, (isUnderBuild e.1 && (e.1 != p)) = isUnderBuild e.1 := by
      intro e _
      by_cases he : isUnderBuild e.1 = true
      · have hne : (e.1 == p) = false := by
          rcases heq : (e.1 == p) with _ | _
          · rfl
          · exact absurd (eq_of_beq heq ▸ he) hp
        simp [he, bne, hne]
      · simp only [Bool.not_eq_true] at he
        simp [he]
    rw [List.filter_congr h1]
    simp [hp]

/-- Restricting a batch of writes to the destination root only depends on the
restricted starting state. -/
theorem restrictBuild_writeAll (files : List (Str × Str)) :
    ∀ fs : FS,
      restrictBuild (writeAll fs files) =
        files.foldl
          (fun a e => if isUnderBuild e.1 = true then writeFile a e.1 e.2 else a)
          (restrictBuild fs) := by
  induction files with
  | nil => intro fs; rfl
  | cons e rest ih =>
    intro fs
    simp only [writeAll, List.foldl_cons]
    have : restrictBuild (List.foldl (fun a e => writeFile a e.1 e.2)
        (writeFile fs e.1 e.2) rest) =
        rest.foldl
          (fun a e => if isUnderBuild e.1 = true then writeFile a e.1 e.2 else a)
          (restrictBuild (writeFile fs e.1 e.2)) := ih (writeFile fs e.1 e.2)
    rw [this, restrictBuild_writeFile]

/-- After the pre-step of `build_all`, nothing remains under the destination
root, whether or not it existed before. -/
theorem restrictBuild_wipe (fs : FS) :
    restrictBuild (if hasBuildDir fs then rmtree_build fs else fs) = [] := by
  by_cases h : hasBuildDir fs = true
  · rw [if_pos h]
    unfold restrictBuild rmtree_build
    rw [List.filter_filter]
    apply List.filter_eq_nil_iff.mpr
    intro e _
    simp
  · rw [if_neg h]
    unfold restrictBuild
    apply List.filter_eq_nil_iff.mpr
    intro e he
    unfold hasBuildDir at h
    simp only [Bool.not_eq_true, List.any_eq_false] at h
    simp [h e he]

/-- C5 (amended): with the catalog, archive inputs, pack version and current
date fixed, the destination tree produced by `build_all` does not depend on
the previous filesystem state — the pre-step wipes the destination root — so
two runs on the same date (in particular, an immediate re-run) produce
byte-identical destination trees. -/
theorem build_all_state_independent (i : BuildInputs) (today : Str)
    (fs fs2 : FS) :
    (build_all i today fs).toOption.map restrictBuild =
      (build_all i today fs2).toOption.map restrictBuild := by
  unfold build_all
  cases hca : create_about_files i today with
  | error e => simp
  | ok files =>
    simp only [Except.toOption, Option.map]
    congr 1
    rw [restrictBuild_writeAll, restrictBuild_writeAll, restrictBuild_writeAll,
      restrictBuild_writeAll, restrictBuild_wipe, restrictBuild_wipe]

/-- C5 counterexample: with identical catalog and archive inputs, two runs on
different dates write different changelogs under the destination root — the
destination tree is not a function of the catalog and archive inputs alone,
because `create_about` embeds `datetime.date.today()` in the changelog
header. -/
theorem build_all_date_counterexample :
    (build_all ⟨[], str "about", str "c", str "\x7bchangelogs\x7d", [], str "1.0"⟩
        (str "2026-10-12") []).toOption.bind
        (fun t => List.lookup (str "build/LNP/about/changelog.txt") t) ≠
      (build_all ⟨[], str "about", str "c", str "\x7bchangelogs\x7d", [], str "1.0"⟩
        (str "2026-10-13") []).toOption.bind
        (fun t => List.lookup (str "build/LNP/about/changelog.txt") t) := by
  decide
